import Mathlib

/-!
# Huffman coding (`FileName.cpp`): embedding and verified properties

The C++ program is embedded as follows.

* A value of type `Node` models a `Node*`: either the null pointer or a pointer to a
  struct with the fields `ch`, `freq`, `left`, `right`.
* `std::string` is a `List Char`; `int` frequencies are natural numbers (the
  development does not model `int` overflow, which needs inputs of 2^31 characters).
* `unordered_map<char, V>` is an association list with distinct keys.  Its iteration
  order is unspecified in C++, so statements that depend on it quantify over every
  ordering of the map.
* `priority_queue<Node*, vector<Node*>, Compare>` is the list of the queued pointers.
  `top()` may return any element `t` such that `Compare(t, m)` is false for every queued
  `m`.  Which of several such elements is returned is decided by a parameter `tie`,
  an arbitrary function of the queue content; statements quantify over every `tie`.
* Code paths on which the C++ program has no defined result (member access through a
  null pointer, `top()` of an empty queue) or throws (`unordered_map::at`) return an
  explicit `Fault`.
-/

namespace Huffman

/-- Ways in which a run of the program fails to produce a value. -/
inductive Fault where
  /-- `unordered_map::at` throws `std::out_of_range`. -/
  | outOfRange
  /-- Undefined behaviour: member access through a null `Node*`. -/
  | nullDeref
  /-- Undefined behaviour: `priority_queue::top` on an empty queue. -/
  | emptyTop
  /-- The merge loop of the model was given too few iterations (never happens for the
  iteration budget used by `buildHuffmanTree`, see `mergeLoop_invariant`). -/
  | outOfFuel
  deriving DecidableEq, Repr

deriving instance DecidableEq for Except

/-- A `Node*`: the null pointer, or a pointer to a `Node` struct. -/
inductive Node where
  | null : Node
  | node (ch : Char) (freq : Nat) (left right : Node) : Node
  deriving DecidableEq, Repr

/-- The test `!p` on a pointer. -/
def Node.isNull : Node → Bool
  | .null => true
  | .node _ _ _ _ => false

/-- The field `p->freq`; queued pointers are never null, the value at `null` is unused. -/
def Node.freq : Node → Nat
  | .null => 0
  | .node _ f _ _ => f

/-- The comparison object of the priority queue: `l->freq > r->freq`. -/
def Compare (l r : Node) : Bool := decide (l.freq > r.freq)

/-! ## `unordered_map` -/

/-- Lookup of a key (`find`). -/
def mapFind {β : Type} (c : Char) : List (Char × β) → Option β
  | [] => none
  | (k, v) :: rest => if k = c then some v else mapFind c rest

/-- The assignment `m[c] = v`: overwrite the entry of `c`, or add one. -/
def mapSet {β : Type} (c : Char) (v : β) : List (Char × β) → List (Char × β)
  | [] => [(c, v)]
  | (k, w) :: rest => if k = c then (k, v) :: rest else (k, w) :: mapSet c v rest

/-- Frequency table: `freqMap[ch]++` for every character of the text
(`operator[]` inserts the value 0 for a new key). -/
def calculateFrequency (text : List Char) : List (Char × Nat) :=
  text.foldl (fun freqMap ch => mapSet ch ((mapFind ch freqMap).getD 0 + 1) freqMap) []

/-! ## Codes, encoding, decoding -/

/-- The recursive code generation; the map passed by reference is returned. -/
def generateCodes : Node → List Char → List (Char × List Char) → List (Char × List Char)
  | .null, _, huffmanCodes => huffmanCodes
  | .node ch _ left right, code, huffmanCodes =>
    let huffmanCodes :=
      if left.isNull && right.isNull then mapSet ch code huffmanCodes else huffmanCodes
    let huffmanCodes := generateCodes left (code ++ ['0']) huffmanCodes
    generateCodes right (code ++ ['1']) huffmanCodes

/-- The loop of `encode`, with the accumulated `encodedString`. -/
def encodeLoop (huffmanCodes : List (Char × List Char)) :
    List Char → List Char → Except Fault (List Char)
  | [], encodedString => .ok encodedString
  | ch :: rest, encodedString =>
    match mapFind ch huffmanCodes with
    | none => .error .outOfRange
    | some code => encodeLoop huffmanCodes rest (encodedString ++ code)

/-- Encode the text with the code table. -/
def encode (text : List Char) (huffmanCodes : List (Char × List Char)) :
    Except Fault (List Char) :=
  encodeLoop huffmanCodes text []

/-- The loop of `decode`: the remaining digits, the `current` pointer and the
accumulated `decodedString`; returns the final `decodedString` and `current`. -/
def decodeLoop (root : Node) : List Char → Node → List Char → Except Fault (List Char × Node)
  | [], current, decodedString => .ok (decodedString, current)
  | bit :: rest, current, decodedString =>
    match current with
    | .null => .error .nullDeref
    | .node _ _ left right =>
      match (if bit = '0' then left else right) with
      | .null => .error .nullDeref
      | .node ch f l r =>
        if l.isNull && r.isNull then decodeLoop root rest root (decodedString ++ [ch])
        else decodeLoop root rest (.node ch f l r) decodedString

/-- Decode the digit string by walking the tree. -/
def decode (encodedString : List Char) (root : Node) : Except Fault (List Char) :=
  match decodeLoop root encodedString root [] with
  | .error e => .error e
  | .ok (decodedString, _) => .ok decodedString

/-! ## The priority queue and the tree construction -/

/-- Whether `top()` may return `n`: `Compare(n, m)` holds for no queued `m`. -/
def isTop (heap : List Node) (n : Node) : Bool := heap.all (fun m => !Compare n m)

/-- Whether position `i` of the queue holds an admissible `top()`. -/
def validTop (heap : List Node) (i : Nat) : Bool :=
  match heap[i]? with
  | some n => isTop heap n
  | none => false

/-- Position of the element returned by `top()`: the one proposed by `tie` when it is
admissible, otherwise the first admissible one. -/
def topIdx (tie : List Node → Nat) (heap : List Node) : Nat :=
  if validTop heap (tie heap) then tie heap else heap.findIdx (isTop heap)

/-- The call `minHeap.top()`. -/
def top (tie : List Node → Nat) (heap : List Node) : Except Fault Node :=
  match heap[topIdx tie heap]? with
  | some n => .ok n
  | none => .error .emptyTop

/-- The call `minHeap.pop()`: removes the element `top()` returns. -/
def pop (tie : List Node → Nat) (heap : List Node) : List Node :=
  heap.eraseIdx (topIdx tie heap)

/-- The call `minHeap.push(n)`. -/
def push (heap : List Node) (n : Node) : List Node := heap ++ [n]

/-- The `while (minHeap.size() > 1)` loop, with an iteration budget. -/
def mergeLoop (tie : List Node → Nat) : Nat → List Node → Except Fault (List Node)
  | 0, minHeap => if minHeap.length > 1 then .error .outOfFuel else .ok minHeap
  | fuel + 1, minHeap =>
    if minHeap.length > 1 then
      match top tie minHeap with
      | .error e => .error e
      | .ok left =>
        match top tie (pop tie minHeap) with
        | .error e => .error e
        | .ok right =>
          let merged := Node.node (Char.ofNat 0) (left.freq + right.freq) left right
          mergeLoop tie fuel (push (pop tie (pop tie minHeap)) merged)
    else .ok minHeap

/-- The queue after the first loop: one leaf per entry of the map. -/
def initHeap (freqMap : List (Char × Nat)) : List Node :=
  freqMap.foldl (fun minHeap pair => push minHeap (Node.node pair.1 pair.2 .null .null)) []

/-- Build the Huffman tree. -/
def buildHuffmanTree (tie : List Node → Nat) (freqMap : List (Char × Nat)) :
    Except Fault Node :=
  match mergeLoop tie (initHeap freqMap).length (initHeap freqMap) with
  | .error e => .error e
  | .ok minHeap => top tie minHeap

/-! ## Notions used in the statements -/

/-- The keys of a map. -/
def keys {β : Type} (m : List (Char × β)) : List Char := m.map Prod.fst

/-- A full binary tree: a leaf (both children null), or a node whose two children are
full binary trees. -/
inductive Full : Node → Prop
  | leaf (ch : Char) (f : Nat) : Full (.node ch f .null .null)
  | inner (ch : Char) (f : Nat) (l r : Node) : Full l → Full r → Full (.node ch f l r)

/-- The test `!p->left && !p->right` on a non-null pointer. -/
def Node.isLeaf : Node → Bool
  | .null => false
  | .node _ _ l r => l.isNull && r.isNull

/-- The leaves of a tree, left to right, as (symbol, freq) pairs. -/
def leaves : Node → List (Char × Nat)
  | .null => []
  | .node ch f l r => (if l.isNull && r.isNull then [(ch, f)] else []) ++ leaves l ++ leaves r

/-- The leaves of a tree, left to right, each with its root-to-leaf path written with
`'0'` for a left step and `'1'` for a right step. -/
def paths : Node → List (Char × List Char)
  | .null => []
  | .node ch _ l r =>
    (if l.isNull && r.isNull then [(ch, [])] else []) ++
      (paths l).map (fun p => (p.1, '0' :: p.2)) ++ (paths r).map (fun p => (p.1, '1' :: p.2))

/-- A tree as the construction makes them: a leaf, or a node with two such subtrees
whose `freq` is the sum of the `freq` of its children. -/
inductive Consistent : Node → Prop
  | leaf (ch : Char) (f : Nat) : Consistent (.node ch f .null .null)
  | inner (ch : Char) (l r : Node) :
      Consistent l → Consistent r → Consistent (.node ch (l.freq + r.freq) l r)

/-- Number of nodes of a tree. -/
def Node.size : Node → Nat
  | .null => 0
  | .node _ _ l r => l.size + r.size + 1

/-- The structural invariant of the merge loop for the map `freqMap`: every queued tree
is consistent, and the leaves of the queued trees are the entries of the map. -/
def Forest (freqMap : List (Char × Nat)) (heap : List Node) : Prop :=
  (∀ t ∈ heap, Consistent t) ∧ (heap.flatMap leaves).Perm freqMap

/-- The first test input of the header comment, "huffman coding is fun". -/
def sampleText : List Char :=
  ['h', 'u', 'f', 'f', 'm', 'a', 'n', ' ', 'c', 'o', 'd', 'i', 'n', 'g', ' ', 'i', 's', ' ',
    'f', 'u', 'n']

/-- A tree with the three leaves `a`, `b`, `c`, used in concrete evaluations. -/
def sampleTree : Node :=
  .node (Char.ofNat 0) 3 (.node 'a' 1 .null .null)
    (.node (Char.ofNat 0) 2 (.node 'b' 1 .null .null) (.node 'c' 1 .null .null))

/-- Kraft sum of a list of code lengths. -/
def kraft (ls : List Nat) : ℚ := (ls.map (fun l => ((2 : ℚ) ^ l)⁻¹)).sum

/-- The node reached from `t` by a digit string: `'0'` steps to the left child, any
other digit to the right child (the test `bit == '0'` of `decode`); stepping from a
null pointer stays null. -/
def follow : Node → List Char → Node
  | t, [] => t
  | .null, _ :: _ => .null
  | .node _ _ l r, d :: ds => follow (if d = '0' then l else r) ds

/-- Whether at every internal node the `freq` of the left child is at most the `freq`
of the right child. -/
def leftLighter : Node → Bool
  | .null => true
  | .node _ _ l r =>
    ((l.isNull && r.isNull) || decide (l.freq ≤ r.freq)) && leftLighter l && leftLighter r

/-! # Verified properties -/

/-! ## Facts about the association-list maps -/

theorem mapFind_mapSet_self {β : Type} (c : Char) (v : β) (m : List (Char × β)) :
    mapFind c (mapSet c v m) = some v := by
  induction m with
  | nil => simp [mapSet, mapFind]
  | cons p rest ih =>
    obtain ⟨k, w⟩ := p
    by_cases h : k = c
    · simp [mapSet, mapFind, h]
    · simp [mapSet, mapFind, h, ih]

theorem mapFind_mapSet_ne {β : Type} {c d : Char} (v : β) (m : List (Char × β)) (h : d ≠ c) :
    mapFind c (mapSet d v m) = mapFind c m := by
  induction m with
  | nil => simp [mapSet, mapFind, h]
  | cons p rest ih =>
    obtain ⟨k, w⟩ := p
    by_cases hk : k = d
    · subst hk; simp [mapSet, mapFind, h]
    · by_cases hc : k = c
      · subst hc; simp [mapSet, mapFind, hk]
      · simp [mapSet, mapFind, hk, hc, ih]

theorem keys_mapSet {β : Type} (c : Char) (v : β) (m : List (Char × β)) :
    keys (mapSet c v m) = if c ∈ keys m then keys m else keys m ++ [c] := by
  induction m with
  | nil => simp [mapSet, keys]
  | cons p rest ih =>
    obtain ⟨k, w⟩ := p
    by_cases hk : k = c
    · subst hk; simp [mapSet, keys]
    · have hk2 : ¬ c = k := fun e => hk e.symm
      simp only [keys] at ih
      simp only [mapSet, hk, if_false, keys, List.map_cons, List.mem_cons, hk2, false_or, ih]
      split <;> simp

theorem nodup_keys_mapSet {β : Type} (c : Char) (v : β) (m : List (Char × β))
    (h : (keys m).Nodup) : (keys (mapSet c v m)).Nodup := by
  rw [keys_mapSet]
  split
  · exact h
  · rename_i hc
    rw [List.nodup_append]
    refine ⟨h, by simp, ?_⟩
    intro a ha hb
    simp at hb
    subst hb
    exact hc ha

theorem mem_keys_mapSet {β : Type} (c d : Char) (v : β) (m : List (Char × β)) :
    d ∈ keys (mapSet c v m) ↔ d = c ∨ d ∈ keys m := by
  rw [keys_mapSet]
  split
  · rename_i hc
    constructor
    · exact Or.inr
    · rintro (rfl | h)
      · exact hc
      · exact h
  · simp [or_comm]

theorem mem_of_mapFind {β : Type} {c : Char} {v : β} {m : List (Char × β)}
    (h : mapFind c m = some v) : (c, v) ∈ m := by
  induction m with
  | nil => simp [mapFind] at h
  | cons p rest ih =>
    obtain ⟨k, w⟩ := p
    by_cases hk : k = c
    · simp [mapFind, hk] at h
      simp [hk, h]
    · simp [mapFind, hk] at h
      exact List.mem_cons_of_mem _ (ih h)

theorem mapFind_of_mem {β : Type} {c : Char} {v : β} {m : List (Char × β)}
    (hnd : (keys m).Nodup) (h : (c, v) ∈ m) : mapFind c m = some v := by
  induction m with
  | nil => simp at h
  | cons p rest ih =>
    obtain ⟨k, w⟩ := p
    simp only [keys, List.map_cons, List.nodup_cons] at hnd
    rcases List.mem_cons.1 h with e | h1
    · injection e with e1 e2
      subst e1; subst e2
      simp [mapFind]
    · have hne : k ≠ c := by
        rintro rfl
        exact hnd.1 (List.mem_map_of_mem Prod.fst h1)
      simp [mapFind, hne, ih hnd.2 h1]

theorem sum_mapSet (c : Char) (v : Nat) (m : List (Char × Nat)) :
    ((mapSet c v m).map Prod.snd).sum + (mapFind c m).getD 0 = (m.map Prod.snd).sum + v := by
  induction m with
  | nil => simp [mapSet, mapFind]
  | cons p rest ih =>
    obtain ⟨k, w⟩ := p
    by_cases hk : k = c
    · simp [mapSet, mapFind, hk]; omega
    · simp [mapSet, mapFind, hk]; omega

theorem calculateFrequency_aux (text : List Char) :
    ∀ acc : List (Char × Nat), (keys acc).Nodup →
      (keys (text.foldl
          (fun freqMap ch => mapSet ch ((mapFind ch freqMap).getD 0 + 1) freqMap) acc)).Nodup ∧
      (∀ c, c ∈ keys (text.foldl
          (fun freqMap ch => mapSet ch ((mapFind ch freqMap).getD 0 + 1) freqMap) acc) ↔
          c ∈ keys acc ∨ c ∈ text) ∧
      (∀ c, (mapFind c (text.foldl
          (fun freqMap ch => mapSet ch ((mapFind ch freqMap).getD 0 + 1) freqMap) acc)).getD 0 =
          (mapFind c acc).getD 0 + text.count c) ∧
      ((text.foldl
          (fun freqMap ch => mapSet ch ((mapFind ch freqMap).getD 0 + 1) freqMap) acc).map
            Prod.snd).sum = (acc.map Prod.snd).sum + text.length := by
  induction text with
  | nil => intro acc h; simp [h]
  | cons ch rest ih =>
    intro acc h
    obtain ⟨h1, h2, h3, h4⟩ := ih _ (nodup_keys_mapSet ch ((mapFind ch acc).getD 0 + 1) acc h)
    simp only [List.foldl_cons]
    refine ⟨h1, ?_, ?_, ?_⟩
    · intro c
      rw [h2 c, mem_keys_mapSet, List.mem_cons]
      tauto
    · intro c
      rw [h3 c]
      by_cases hc : ch = c
      · subst hc
        rw [mapFind_mapSet_self]
        simp; omega
      · rw [mapFind_mapSet_ne _ _ hc, List.count_cons_of_ne (fun e => hc e.symm)]
    · rw [h4]
      have := sum_mapSet ch ((mapFind ch acc).getD 0 + 1) acc
      simp only [List.length_cons]
      omega

theorem nodup_keys_calculateFrequency (text : List Char) :
    (keys (calculateFrequency text)).Nodup :=
  (calculateFrequency_aux text [] (by simp [keys])).1

theorem mem_keys_calculateFrequency (text : List Char) (c : Char) :
    c ∈ keys (calculateFrequency text) ↔ c ∈ text := by
  have := (calculateFrequency_aux text [] (by simp [keys])).2.1 c
  simpa [keys] using this

theorem encodeLoop_acc (codes : List (Char × List Char)) (text : List Char) :
    ∀ acc : List Char, encodeLoop codes text acc =
      match encodeLoop codes text [] with
      | .error e => .error e
      | .ok s => .ok (acc ++ s) := by
  induction text with
  | nil => intro acc; simp [encodeLoop]
  | cons ch rest ih =>
    intro acc
    simp only [encodeLoop]
    cases hf : mapFind ch codes with
    | none => rfl
    | some code =>
      simp only [List.nil_append]
      rw [ih (acc ++ code), ih code]
      cases encodeLoop codes rest [] <;> simp

theorem encode_nil (codes : List (Char × List Char)) : encode [] codes = .ok [] := rfl

theorem encode_cons (codes : List (Char × List Char)) (ch : Char) (rest : List Char) :
    encode (ch :: rest) codes =
      match mapFind ch codes with
      | none => .error .outOfRange
      | some code =>
        match encode rest codes with
        | .error e => .error e
        | .ok s => .ok (code ++ s) := by
  simp only [encode, encodeLoop]
  cases hf : mapFind ch codes with
  | none => rfl
  | some code =>
    simp only [List.nil_append]
    rw [encodeLoop_acc]

theorem encode_append (codes : List (Char × List Char)) (s1 s2 : List Char) :
    encode (s1 ++ s2) codes =
      match encode s1 codes with
      | .error e => .error e
      | .ok a =>
        match encode s2 codes with
        | .error e => .error e
        | .ok b => .ok (a ++ b) := by
  induction s1 with
  | nil => simp [encode_nil]; cases encode s2 codes <;> rfl
  | cons ch rest ih =>
    rw [List.cons_append, encode_cons, encode_cons, ih]
    cases mapFind ch codes with
    | none => rfl
    | some code =>
      cases encode rest codes with
      | error e => rfl
      | ok a =>
        cases encode s2 codes with
        | error e => rfl
        | ok b => simp

theorem encode_error_iff (codes : List (Char × List Char)) (text : List Char) :
    encode text codes = .error .outOfRange ↔ ∃ c ∈ text, mapFind c codes = none := by
  induction text with
  | nil => simp [encode_nil]
  | cons ch rest ih =>
    rw [encode_cons]
    cases hf : mapFind ch codes with
    | none => simp [hf]
    | some code =>
      cases he : encode rest codes with
      | error e =>
        rw [he] at ih
        simp only [List.mem_cons, exists_eq_or_imp, hf, false_or]
        simpa using ih
      | ok a =>
        rw [he] at ih
        simp only [List.mem_cons, exists_eq_or_imp, hf, false_or]
        simpa using ih

theorem encode_error_kind (codes : List (Char × List Char)) (text : List Char) (e : Fault) :
    encode text codes = .error e → e = .outOfRange := by
  induction text with
  | nil => simp [encode_nil]
  | cons ch rest ih =>
    rw [encode_cons]
    cases hf : mapFind ch codes with
    | none => simp; intro h; exact h.symm
    | some code =>
      cases he : encode rest codes with
      | error e2 => rw [he] at ih; simp; intro h; subst h; exact ih rfl
      | ok a => simp

theorem encode_ok (codes : List (Char × List Char)) (text : List Char)
    (h : ∀ c ∈ text, mapFind c codes ≠ none) :
    encode text codes = .ok (text.flatMap (fun c => (mapFind c codes).getD [])) := by
  induction text with
  | nil => simp [encode_nil]
  | cons ch rest ih =>
    rw [encode_cons]
    cases hf : mapFind ch codes with
    | none => exact absurd hf (h ch (List.mem_cons_self _ _))
    | some code =>
      rw [ih (fun c hc => h c (List.mem_cons_of_mem _ hc))]
      simp [hf]

/-! ## Trees -/

theorem Full.ne_null {t : Node} (h : Full t) : t.isNull = false := by
  cases h <;> rfl

theorem keys_paths (t : Node) : keys (paths t) = keys (leaves t) := by
  induction t with
  | null => rfl
  | node ch f l r ihl ihr =>
    simp only [keys] at ihl ihr
    simp only [paths, leaves, keys, List.map_append, List.map_map, ← ihl, ← ihr]
    congr 2
    split <;> rfl

theorem paths_leaf (ch : Char) (f : Nat) : paths (.node ch f .null .null) = [(ch, [])] := by
  simp [paths, Node.isNull]

theorem paths_inner {l r : Node} (ch : Char) (f : Nat) (hl : l.isNull = false) :
    paths (.node ch f l r) =
      (paths l).map (fun p => (p.1, '0' :: p.2)) ++ (paths r).map (fun p => (p.1, '1' :: p.2)) := by
  simp [paths, hl]

theorem leaves_leaf (ch : Char) (f : Nat) : leaves (.node ch f .null .null) = [(ch, f)] := by
  simp [leaves, Node.isNull]

theorem leaves_inner {l r : Node} (ch : Char) (f : Nat) (hl : l.isNull = false) :
    leaves (.node ch f l r) = leaves l ++ leaves r := by
  simp [leaves, hl]

/-! ## `generateCodes` writes the root-to-leaf paths -/

theorem generateCodes_eq_foldl (t : Node) :
    ∀ (code : List Char) (m : List (Char × List Char)),
      generateCodes t code m = (paths t).foldl (fun m p => mapSet p.1 (code ++ p.2) m) m := by
  induction t with
  | null => intro code m; rfl
  | node ch f l r ihl ihr =>
    intro code m
    simp only [generateCodes, paths, List.foldl_append, List.foldl_map, ihl, ihr,
      List.append_assoc, List.singleton_append]
    congr 2
    split <;> simp

theorem mapFind_foldl_mapSet_not_mem (code : List Char) (L : List (Char × List Char)) (c : Char) :
    ∀ m : List (Char × List Char), c ∉ keys L →
      mapFind c (L.foldl (fun m p => mapSet p.1 (code ++ p.2) m) m) = mapFind c m := by
  induction L with
  | nil => intro m _; rfl
  | cons q rest ih =>
    intro m hc
    simp only [keys, List.map_cons, List.mem_cons, not_or] at hc
    simp only [List.foldl_cons]
    rw [ih _ hc.2, mapFind_mapSet_ne _ _ (fun e => hc.1 e.symm)]

theorem mapFind_generateCodes_none {t : Node} {c : Char} (h : c ∉ keys (leaves t)) :
    mapFind c (generateCodes t [] []) = none := by
  rw [generateCodes_eq_foldl, mapFind_foldl_mapSet_not_mem [] (paths t) c [] (by rw [keys_paths]; exact h)]
  rfl

theorem mapFind_foldl_mapSet_sub (code : List Char) (L : List (Char × List Char)) (c : Char)
    (v : List Char) :
    ∀ m : List (Char × List Char),
      mapFind c (L.foldl (fun m p => mapSet p.1 (code ++ p.2) m) m) = some v →
      (∃ p, (c, p) ∈ L ∧ v = code ++ p) ∨ mapFind c m = some v := by
  induction L with
  | nil => intro m h; exact Or.inr h
  | cons q rest ih =>
    intro m h
    simp only [List.foldl_cons] at h
    rcases ih _ h with ⟨p, hp, hv⟩ | h2
    · exact Or.inl ⟨p, List.mem_cons_of_mem _ hp, hv⟩
    · by_cases hq : q.1 = c
      · rw [hq, mapFind_mapSet_self] at h2
        injection h2 with h2
        exact Or.inl ⟨q.2, by rw [← hq]; exact List.mem_cons_self _ _, h2.symm⟩
      · rw [mapFind_mapSet_ne _ _ hq] at h2
        exact Or.inr h2

theorem mapFind_foldl_mapSet_some (code : List Char) (L : List (Char × List Char)) (c : Char) :
    ∀ m : List (Char × List Char), c ∈ keys L →
      ∃ v, mapFind c (L.foldl (fun m p => mapSet p.1 (code ++ p.2) m) m) = some v := by
  induction L with
  | nil => intro m h; simp [keys] at h
  | cons q rest ih =>
    intro m h
    simp only [List.foldl_cons]
    by_cases hc : c ∈ keys rest
    · exact ih _ hc
    · have hq : c = q.1 := by
        simp only [keys, List.map_cons, List.mem_cons] at h hc
        rcases h with h | h
        · exact h
        · exact absurd h hc
      rw [mapFind_foldl_mapSet_not_mem code rest c _ hc, hq, mapFind_mapSet_self]
      exact ⟨_, rfl⟩

/-- Every code of the generated table is the path of a leaf carrying the symbol. -/
theorem mem_paths_of_mapFind {t : Node} {c : Char} {p : List Char}
    (h : mapFind c (generateCodes t [] []) = some p) : (c, p) ∈ paths t := by
  rw [generateCodes_eq_foldl] at h
  rcases mapFind_foldl_mapSet_sub [] (paths t) c p [] h with ⟨q, hq, e⟩ | h2
  · rw [e]; simpa using hq
  · simp [mapFind] at h2

/-- Every symbol on a leaf has an entry in the generated table. -/
theorem exists_code_of_mem_keys {t : Node} {c : Char} (h : c ∈ keys (leaves t)) :
    ∃ p, mapFind c (generateCodes t [] []) = some p := by
  rw [generateCodes_eq_foldl]
  exact mapFind_foldl_mapSet_some [] (paths t) c [] (by rw [keys_paths]; exact h)

theorem decodeLoop_path (root : Node) (rest : List Char) {t : Node} (ht : Full t) :
    ∀ (c : Char) (p : List Char) (out : List Char), t.isLeaf = false → (c, p) ∈ paths t →
      decodeLoop root (p ++ rest) t out = decodeLoop root rest root (out ++ [c]) := by
  induction ht with
  | leaf ch f => intro c p out hleaf; simp [Node.isLeaf, Node.isNull] at hleaf
  | inner ch f l r hl hr ihl ihr =>
    intro c p out _ hp
    rw [paths_inner ch f hl.ne_null, List.mem_append] at hp
    rcases hp with hp | hp
    · simp only [List.mem_map] at hp
      obtain ⟨⟨c2, q⟩, hq, e⟩ := hp
      injection e with e1 e2
      subst e1; subst e2
      cases hl with
      | leaf ch2 f2 =>
        rw [paths_leaf] at hq
        simp at hq
        obtain ⟨rfl, rfl⟩ := hq
        simp [decodeLoop, Node.isNull]
      | inner ch2 f2 l2 r2 hl2 hr2 =>
        have := ihl c2 q out (by simp [Node.isLeaf, hl2.ne_null]) hq
        simp only [List.cons_append, decodeLoop, if_true, hl2.ne_null, Bool.false_and]
        simpa using this
    · simp only [List.mem_map] at hp
      obtain ⟨⟨c2, q⟩, hq, e⟩ := hp
      injection e with e1 e2
      subst e1; subst e2
      have h10 : ¬ ('1' = '0') := by decide
      cases hr with
      | leaf ch2 f2 =>
        rw [paths_leaf] at hq
        simp at hq
        obtain ⟨rfl, rfl⟩ := hq
        simp [decodeLoop, Node.isNull, h10]
      | inner ch2 f2 l2 r2 hl2 hr2 =>
        have := ihr c2 q out (by simp [Node.isLeaf, hl2.ne_null]) hq
        simp only [List.cons_append, decodeLoop, h10, if_false, hl2.ne_null, Bool.false_and]
        simpa using this

/-- Decoding the concatenated codes of a text made of symbols of the tree, followed by more
digits, emits the text and continues from the root. -/
theorem decodeLoop_encode {root : Node} (hfull : Full root) (hleaf : root.isLeaf = false)
    (rest : List Char) :
    ∀ (text : List Char) (out : List Char), (∀ c ∈ text, c ∈ keys (leaves root)) →
      ∃ enc, encode text (generateCodes root [] []) = .ok enc ∧
        decodeLoop root (enc ++ rest) root out = decodeLoop root rest root (out ++ text) := by
  intro text
  induction text with
  | nil => intro out _; exact ⟨[], rfl, by simp⟩
  | cons ch tl ih =>
    intro out h
    obtain ⟨p, hcode⟩ := exists_code_of_mem_keys (h ch (List.mem_cons_self _ _))
    have hp := mem_paths_of_mapFind hcode
    obtain ⟨enc, he, hd⟩ := ih (out ++ [ch]) (fun c hc => h c (List.mem_cons_of_mem _ hc))
    refine ⟨p ++ enc, ?_, ?_⟩
    · rw [encode_cons, hcode, he]
    · rw [List.append_assoc, decodeLoop_path root (enc ++ rest) hfull ch p out hleaf hp, hd]
      simp

/-! ## The priority queue -/

theorem perm_cons_eraseIdx {α : Type} (l : List α) :
    ∀ (i : Nat) (h : i < l.length), l.Perm (l[i] :: l.eraseIdx i) := by
  induction l with
  | nil => intro i h; simp at h
  | cons a as ih =>
    intro i h
    cases i with
    | zero => simp
    | succ j =>
      simp only [List.getElem_cons_succ, List.eraseIdx_cons_succ]
      have hj : j < as.length := by simpa using h
      exact ((ih j hj).cons a).trans (List.Perm.swap _ _ _)

theorem isTop_iff (heap : List Node) (n : Node) :
    isTop heap n = true ↔ ∀ m ∈ heap, n.freq ≤ m.freq := by
  simp [isTop, Compare, List.all_eq_true]

theorem exists_isTop (heap : List Node) (h : heap ≠ []) :
    ∃ x ∈ heap, isTop heap x = true := by
  induction heap with
  | nil => exact absurd rfl h
  | cons a as ih =>
    by_cases has : as = []
    · subst has
      exact ⟨a, by simp, by simp [isTop_iff]⟩
    · obtain ⟨x, hx, hmin⟩ := ih has
      rw [isTop_iff] at hmin
      by_cases hax : a.freq ≤ x.freq
      · refine ⟨a, by simp, ?_⟩
        rw [isTop_iff]
        intro m hm
        rcases List.mem_cons.1 hm with rfl | hm
        · exact le_refl _
        · exact le_trans hax (hmin m hm)
      · refine ⟨x, List.mem_cons_of_mem _ hx, ?_⟩
        rw [isTop_iff]
        intro m hm
        rcases List.mem_cons.1 hm with rfl | hm
        · omega
        · exact hmin m hm

theorem topIdx_spec (tie : List Node → Nat) (heap : List Node) (h : heap ≠ []) :
    ∃ hlt : topIdx tie heap < heap.length, isTop heap heap[topIdx tie heap] = true := by
  unfold topIdx
  split
  · rename_i hv
    unfold validTop at hv
    split at hv
    · rename_i n hn
      obtain ⟨hlt, e⟩ := List.getElem?_eq_some.1 hn
      exact ⟨hlt, by rw [e]; exact hv⟩
    · simp at hv
  · have hlt := List.findIdx_lt_length_of_exists (exists_isTop heap h)
    exact ⟨hlt, List.findIdx_getElem⟩

/-- On a non-empty queue `top()` returns a queued element of least `freq`, and `pop()`
removes exactly that element. -/
theorem top_pop_spec (tie : List Node → Nat) (heap : List Node) (h : heap ≠ []) :
    ∃ n, top tie heap = .ok n ∧ (∀ m ∈ heap, n.freq ≤ m.freq) ∧
      heap.Perm (n :: pop tie heap) := by
  obtain ⟨hlt, htop⟩ := topIdx_spec tie heap h
  refine ⟨heap[topIdx tie heap], ?_, (isTop_iff _ _).1 htop, ?_⟩
  · simp [top, List.getElem?_eq_getElem hlt]
  · exact perm_cons_eraseIdx heap _ hlt

theorem top_nil (tie : List Node → Nat) : top tie [] = .error .emptyTop := by
  simp [top]

theorem top_singleton (tie : List Node → Nat) (n : Node) : top tie [n] = .ok n := by
  obtain ⟨m, hm, _, hp⟩ := top_pop_spec tie [n] (by simp)
  have := hp.length_eq
  have hmem : m ∈ [n] := hp.symm.subset (List.mem_cons_self _ _)
  simp at hmem
  rw [hm, hmem]

theorem initHeap_eq (freqMap : List (Char × Nat)) :
    initHeap freqMap = freqMap.map (fun pair => Node.node pair.1 pair.2 .null .null) := by
  unfold initHeap
  have : ∀ (l : List (Char × Nat)) (acc : List Node),
      l.foldl (fun minHeap pair => push minHeap (Node.node pair.1 pair.2 .null .null)) acc =
        acc ++ l.map (fun pair => Node.node pair.1 pair.2 .null .null) := by
    intro l
    induction l with
    | nil => intro acc; simp
    | cons a as ih => intro acc; rw [List.foldl_cons, ih]; simp [push]
  simpa using this freqMap []

/-- One iteration of the merge loop: the two removed nodes are least among the queued
ones, and the queue afterwards holds the remaining nodes and the merged node. -/
theorem merge_step (tie : List Node → Nat) (heap : List Node) (h : 1 < heap.length) :
    ∃ l r rest, top tie heap = .ok l ∧ top tie (pop tie heap) = .ok r ∧
      pop tie (pop tie heap) = rest ∧ heap.Perm (l :: r :: rest) ∧
      (∀ m ∈ heap, l.freq ≤ m.freq) ∧ (∀ m ∈ rest, r.freq ≤ m.freq) := by
  have hne : heap ≠ [] := by intro e; subst e; simp at h
  obtain ⟨l, hl, hlmin, hlp⟩ := top_pop_spec tie heap hne
  have hlen := hlp.length_eq
  have hne2 : pop tie heap ≠ [] := by
    intro e; rw [e] at hlen; simp at hlen; omega
  obtain ⟨r, hr, hrmin, hrp⟩ := top_pop_spec tie (pop tie heap) hne2
  refine ⟨l, r, _, hl, hr, rfl, hlp.trans (hrp.cons l), hlmin, ?_⟩
  intro m hm
  exact hrmin m (hrp.symm.subset (List.mem_cons_of_mem _ hm))

/-- Invariant rule for the merge loop: a property of the queue that holds initially and
is kept by every merge of two least nodes holds of the final one-element queue; the loop
does not fault and stays within its iteration budget. -/
theorem mergeLoop_invariant (tie : List Node → Nat) (Inv : List Node → Prop)
    (hstep : ∀ (heap : List Node) (l r : Node) (rest : List Node), Inv heap →
      heap.Perm (l :: r :: rest) → (∀ m ∈ heap, l.freq ≤ m.freq) →
      (∀ m ∈ rest, r.freq ≤ m.freq) →
      Inv (rest ++ [Node.node (Char.ofNat 0) (l.freq + r.freq) l r])) :
    ∀ (fuel : Nat) (heap : List Node), heap.length ≤ fuel + 1 → heap ≠ [] → Inv heap →
      ∃ root, mergeLoop tie fuel heap = .ok [root] ∧ Inv [root] := by
  intro fuel
  induction fuel with
  | zero =>
    intro heap hlen hne hinv
    match heap, hlen, hne, hinv with
    | [root], _, _, hinv => exact ⟨root, by simp [mergeLoop], hinv⟩
  | succ fuel ih =>
    intro heap hlen hne hinv
    by_cases h1 : 1 < heap.length
    · obtain ⟨l, r, rest, hl, hr, hrest, hperm, hlmin, hrmin⟩ := merge_step tie heap h1
      have hlen2 := hperm.length_eq
      simp only [List.length_cons] at hlen2
      obtain ⟨root, hroot, hinv2⟩ :=
        ih (rest ++ [Node.node (Char.ofNat 0) (l.freq + r.freq) l r])
          (by simp; omega) (by simp) (hstep heap l r rest hinv hperm hlmin hrmin)
      refine ⟨root, ?_, hinv2⟩
      simp only [mergeLoop, gt_iff_lt, h1, if_true, hl, hr, hrest, push]
      exact hroot
    · match heap, h1, hne, hinv with
      | [root], _, _, hinv => exact ⟨root, by simp [mergeLoop], hinv⟩
      | _ :: _ :: _, h1, _, _ => simp at h1

/-- Invariant rule for `buildHuffmanTree`: on a non-empty map the construction returns a
tree, and every property that holds of the initial queue of leaves and is kept by each
merge of two least nodes holds of the queue consisting of the returned tree. -/
theorem buildHuffmanTree_invariant (tie : List Node → Nat) (Inv : List Node → Prop)
    (hstep : ∀ (heap : List Node) (l r : Node) (rest : List Node), Inv heap →
      heap.Perm (l :: r :: rest) → (∀ m ∈ heap, l.freq ≤ m.freq) →
      (∀ m ∈ rest, r.freq ≤ m.freq) →
      Inv (rest ++ [Node.node (Char.ofNat 0) (l.freq + r.freq) l r]))
    (freqMap : List (Char × Nat)) (hne : freqMap ≠ [])
    (hinit : Inv (freqMap.map (fun pair => Node.node pair.1 pair.2 .null .null))) :
    ∃ root, buildHuffmanTree tie freqMap = .ok root ∧ Inv [root] := by
  have hne2 : initHeap freqMap ≠ [] := by
    rw [initHeap_eq]; simpa using hne
  obtain ⟨root, hroot, hinv⟩ := mergeLoop_invariant tie Inv hstep (initHeap freqMap).length
    (initHeap freqMap) (by omega) hne2 (by rw [initHeap_eq]; exact hinit)
  exact ⟨root, by simp [buildHuffmanTree, hroot, top_singleton], hinv⟩

theorem buildHuffmanTree_nil (tie : List Node → Nat) :
    buildHuffmanTree tie [] = .error .emptyTop := by
  simp [buildHuffmanTree, initHeap, mergeLoop, top_nil]

/-! ## Shape of the constructed tree -/

theorem Consistent.full {t : Node} (h : Consistent t) : Full t := by
  induction h with
  | leaf ch f => exact Full.leaf ch f
  | inner ch l r _ _ ihl ihr => exact Full.inner ch _ l r ihl ihr

theorem Full.leaves_length {t : Node} (h : Full t) (hleaf : t.isLeaf = true) :
    (leaves t).length = 1 := by
  cases h with
  | leaf ch f => simp [leaves_leaf]
  | inner ch f l r hl hr => simp [Node.isLeaf, hl.ne_null] at hleaf

theorem forest_init (freqMap : List (Char × Nat)) :
    Forest freqMap (freqMap.map (fun pair => Node.node pair.1 pair.2 .null .null)) := by
  constructor
  · intro t ht
    simp only [List.mem_map] at ht
    obtain ⟨p, _, rfl⟩ := ht
    exact Consistent.leaf _ _
  · rw [List.flatMap_map]
    have : ∀ l : List (Char × Nat),
        l.flatMap (fun a => leaves (Node.node a.1 a.2 .null .null)) = l := by
      intro l
      induction l with
      | nil => rfl
      | cons a as ih => simp [List.flatMap_cons, leaves_leaf, ih]
    rw [this]

theorem forest_step {freqMap : List (Char × Nat)} {heap : List Node} {l r : Node}
    {rest : List Node} (h : Forest freqMap heap) (hperm : heap.Perm (l :: r :: rest)) :
    Forest freqMap (rest ++ [Node.node (Char.ofNat 0) (l.freq + r.freq) l r]) := by
  obtain ⟨hc, hl⟩ := h
  have hcl : Consistent l := hc l (hperm.symm.subset (by simp))
  have hcr : Consistent r := hc r (hperm.symm.subset (by simp))
  constructor
  · intro t ht
    rcases List.mem_append.1 ht with ht | ht
    · exact hc t (hperm.symm.subset (by simp [ht]))
    · simp only [List.mem_singleton] at ht
      subst ht
      exact Consistent.inner _ l r hcl hcr
  · refine List.Perm.trans ?_ ((hperm.flatMap_right leaves).symm.trans hl)
    simp only [List.flatMap_append, List.flatMap_cons, List.flatMap_nil, List.append_nil,
      leaves_inner _ _ hcl.full.ne_null]
    rw [← List.append_assoc (leaves l)]
    exact List.perm_append_comm

/-- On a non-empty frequency map `buildHuffmanTree` returns a consistent tree whose
leaves are the entries of the map, whatever the choices among equal-weight nodes. -/
theorem buildHuffmanTree_spec (tie : List Node → Nat) (freqMap : List (Char × Nat))
    (hne : freqMap ≠ []) :
    ∃ root, buildHuffmanTree tie freqMap = .ok root ∧ Consistent root ∧
      (leaves root).Perm freqMap := by
  obtain ⟨root, hroot, hc, hl⟩ := buildHuffmanTree_invariant tie (Forest freqMap)
    (fun heap l r rest hinv hperm _ _ => forest_step hinv hperm) freqMap hne (forest_init freqMap)
  refine ⟨root, hroot, hc root (by simp), ?_⟩
  simpa using hl

theorem isLeaf_false_of_leaves {root : Node} {freqMap : List (Char × Nat)}
    (hc : Consistent root) (hl : (leaves root).Perm freqMap) (h2 : 2 ≤ freqMap.length) :
    root.isLeaf = false := by
  cases hleaf : root.isLeaf with
  | false => rfl
  | true =>
    have := hc.full.leaves_length hleaf
    rw [hl.length_eq] at this
    omega

theorem nodup_keys_of_perm {β : Type} {m1 m2 : List (Char × β)} (h : m1.Perm m2)
    (hnd : (keys m2).Nodup) : (keys m1).Nodup :=
  ((h.map Prod.fst).nodup_iff).2 hnd

theorem mem_keys_of_perm {β : Type} {m1 m2 : List (Char × β)} (h : m1.Perm m2) (c : Char) :
    c ∈ keys m1 ↔ c ∈ keys m2 :=
  (h.map Prod.fst).mem_iff

theorem two_le_length_of_distinct {l : List Char} (hnd : l.Nodup) {a b : Char} (ha : a ∈ l)
    (hb : b ∈ l) (hab : a ≠ b) : 2 ≤ l.length := by
  match l, hnd, ha, hb with
  | [], _, ha, _ => simp at ha
  | [x], _, ha, hb =>
    simp at ha hb
    exact absurd (ha.trans hb.symm) hab
  | _ :: _ :: _, _, _, _ => simp

/-- Facts about the frequency map of a text with two distinct characters, in any
iteration order. -/
theorem freqMap_facts {S : List Char} {freqMap : List (Char × Nat)}
    (hperm : freqMap.Perm (calculateFrequency S)) :
    (keys freqMap).Nodup ∧ (∀ c, c ∈ keys freqMap ↔ c ∈ S) ∧
      ((∃ a ∈ S, ∃ b ∈ S, a ≠ b) → 2 ≤ freqMap.length) := by
  have hnd := nodup_keys_of_perm hperm (nodup_keys_calculateFrequency S)
  have hmem : ∀ c, c ∈ keys freqMap ↔ c ∈ S := fun c =>
    (mem_keys_of_perm hperm c).trans (mem_keys_calculateFrequency S c)
  refine ⟨hnd, hmem, ?_⟩
  rintro ⟨a, ha, b, hb, hab⟩
  have := two_le_length_of_distinct hnd ((hmem a).2 ha) ((hmem b).2 hb) hab
  simpa [keys] using this

theorem decode_eq_of_decodeLoop {root cur : Node} {stream out : List Char}
    (h : decodeLoop root stream root [] = .ok (out, cur)) : decode stream root = .ok out := by
  simp [decode, h]

/-- Round trip for a text over the symbols of a tree with at least two leaves. -/
theorem decode_encode {root : Node} (hc : Consistent root) (hleaf : root.isLeaf = false)
    (text : List Char)
    (h : ∀ c ∈ text, c ∈ keys (leaves root)) :
    ∃ enc, encode text (generateCodes root [] []) = .ok enc ∧ decode enc root = .ok text := by
  obtain ⟨enc, he, hd⟩ := decodeLoop_encode hc.full hleaf [] text [] h
  refine ⟨enc, he, ?_⟩
  simp only [List.append_nil, List.nil_append, decodeLoop] at hd
  exact decode_eq_of_decodeLoop hd

/-- The pipeline of `main` on a text with two distinct characters. -/
theorem pipeline_spec (tie : List Node → Nat) (S : List Char) (freqMap : List (Char × Nat))
    (hperm : freqMap.Perm (calculateFrequency S)) (h2 : ∃ a ∈ S, ∃ b ∈ S, a ≠ b) :
    ∃ root, buildHuffmanTree tie freqMap = .ok root ∧ Consistent root ∧
      (leaves root).Perm freqMap ∧ root.isLeaf = false ∧ (keys (leaves root)).Nodup ∧
      ∀ c, c ∈ keys (leaves root) ↔ c ∈ S := by
  obtain ⟨hnd, hmem, hlen⟩ := freqMap_facts hperm
  have hne : freqMap ≠ [] := by
    intro e; have := hlen h2; rw [e] at this; simp at this
  obtain ⟨root, hroot, hc, hl⟩ := buildHuffmanTree_spec tie freqMap hne
  exact ⟨root, hroot, hc, hl, isLeaf_false_of_leaves hc hl (hlen h2),
    nodup_keys_of_perm hl hnd, fun c => (mem_keys_of_perm hl c).trans (hmem c)⟩

/-! ## Prefix-freeness of the leaf paths -/

theorem paths_prefix_unique {t : Node} (h : Full t) :
    ∀ (a : Char) (p : List Char) (b : Char) (q : List Char),
      (a, p) ∈ paths t → (b, q) ∈ paths t → p <+: q → a = b := by
  induction h with
  | leaf ch f =>
    intro a p b q ha hb _
    rw [paths_leaf] at ha hb
    simp at ha hb
    rw [ha.1, hb.1]
  | inner ch f l r hl hr ihl ihr =>
    intro a p b q ha hb hpq
    have h01 : ¬ ('0' = '1') := by decide
    have h10 : ¬ ('1' = '0') := by decide
    rw [paths_inner ch f hl.ne_null, List.mem_append] at ha hb
    simp only [List.mem_map, Prod.mk.injEq, Prod.exists] at ha hb
    rcases ha with ⟨a2, p2, hp2, rfl, rfl⟩ | ⟨a2, p2, hp2, rfl, rfl⟩ <;>
      rcases hb with ⟨b2, q2, hq2, rfl, rfl⟩ | ⟨b2, q2, hq2, rfl, rfl⟩
    · exact ihl a2 p2 b2 q2 hp2 hq2 (List.cons_prefix_cons.1 hpq).2
    · exact absurd (List.cons_prefix_cons.1 hpq).1 h01
    · exact absurd (List.cons_prefix_cons.1 hpq).1 h10
    · exact ihr a2 p2 b2 q2 hp2 hq2 (List.cons_prefix_cons.1 hpq).2

/-! ## Walking a proper prefix of a code -/

theorem Node.size_pos {t : Node} (h : Full t) : 0 < t.size := by
  cases h <;> simp [Node.size]

theorem decodeLoop_partial (root : Node) {t : Node} (ht : Full t) :
    ∀ (c : Char) (p s : List Char) (out : List Char), (c, p ++ s) ∈ paths t → s ≠ [] →
      ∃ cur, decodeLoop root p t out = .ok (out, cur) ∧ cur.size + p.length ≤ t.size := by
  induction ht with
  | leaf ch f =>
    intro c p s out hp hs
    rw [paths_leaf] at hp
    simp at hp
    exact absurd hp.2.2 hs
  | inner ch f l r hl hr ihl ihr =>
    intro c p s out hp hs
    cases p with
    | nil => exact ⟨_, rfl, by simp⟩
    | cons b p2 =>
      have h10 : ¬ ('1' = '0') := by decide
      rw [paths_inner ch f hl.ne_null, List.mem_append] at hp
      simp only [List.mem_map, Prod.mk.injEq, Prod.exists, List.cons_append] at hp
      rcases hp with ⟨a2, q2, hq2, rfl, hcons⟩ | ⟨a2, q2, hq2, rfl, hcons⟩
      · injection hcons with e1 e2
        subst e1; subst e2
        cases hl with
        | leaf ch2 f2 =>
          rw [paths_leaf] at hq2
          simp at hq2
          exact absurd hq2.2.2 hs
        | inner ch2 f2 l2 r2 hl2 hr2 =>
          obtain ⟨cur, hcur, hsz⟩ := ihl a2 p2 s out hq2 hs
          refine ⟨cur, ?_, ?_⟩
          · simp only [decodeLoop, if_true, hl2.ne_null, Bool.false_and]
            simpa using hcur
          · simp only [Node.size, List.length_cons] at hsz ⊢
            omega
      · injection hcons with e1 e2
        subst e1; subst e2
        cases hr with
        | leaf ch2 f2 =>
          rw [paths_leaf] at hq2
          simp at hq2
          exact absurd hq2.2.2 hs
        | inner ch2 f2 l2 r2 hl2 hr2 =>
          obtain ⟨cur, hcur, hsz⟩ := ihr a2 p2 s out hq2 hs
          refine ⟨cur, ?_, ?_⟩
          · simp only [decodeLoop, h10, if_false, hl2.ne_null, Bool.false_and]
            simpa using hcur
          · simp only [Node.size, List.length_cons] at hsz ⊢
            omega

/-! ## Kraft sums -/

theorem kraft_nil : kraft [] = 0 := rfl

theorem kraft_cons (l : Nat) (ls : List Nat) : kraft (l :: ls) = ((2 : ℚ) ^ l)⁻¹ + kraft ls := by
  simp [kraft]

theorem kraft_nonneg (ls : List Nat) : 0 ≤ kraft ls := by
  induction ls with
  | nil => simp [kraft_nil]
  | cons l ls ih =>
    rw [kraft_cons]
    have : (0 : ℚ) < ((2 : ℚ) ^ l)⁻¹ := by positivity
    linarith

theorem decode_leaf_cons (s : Char) (f : Nat) (bit : Char) (rest : List Char) :
    decode (bit :: rest) (.node s f .null .null) = .error .nullDeref := by
  simp [decode, decodeLoop]

/-! ## `decode` is total on branching trees -/

theorem decodeLoop_total {root : Node} (hfull : Full root) (hleaf : root.isLeaf = false) :
    ∀ (stream : List Char) (cur : Node) (out : List Char), Full cur → cur.isLeaf = false →
      ∃ out2 cur2, decodeLoop root stream cur out = .ok (out2, cur2) ∧
        out2.length ≤ out.length + stream.length := by
  intro stream
  induction stream with
  | nil => intro cur out _ _; exact ⟨out, cur, rfl, by simp⟩
  | cons bit rest ih =>
    intro cur out hcur hcl
    cases hcur with
    | leaf ch f => simp [Node.isLeaf, Node.isNull] at hcl
    | inner ch f l r hl hr =>
      have hnext : Full (if bit = '0' then l else r) := by
        split
        · exact hl
        · exact hr
      cases hn : (if bit = '0' then l else r) with
      | null => rw [hn] at hnext; cases hnext
      | node ch2 f2 l2 r2 =>
        rw [hn] at hnext
        by_cases hlf : (l2.isNull && r2.isNull) = true
        · obtain ⟨out2, cur2, h1, h2⟩ := ih root (out ++ [ch2]) hfull hleaf
          refine ⟨out2, cur2, ?_, ?_⟩
          · simp only [decodeLoop, hn, hlf, if_true]
            exact h1
          · simp only [List.length_append, List.length_cons, List.length_nil] at h2 ⊢
            omega
        · obtain ⟨out2, cur2, h1, h2⟩ := ih (.node ch2 f2 l2 r2) out hnext
            (by simpa [Node.isLeaf] using hlf)
          refine ⟨out2, cur2, ?_, ?_⟩
          · simp only [decodeLoop, hn, hlf]
            exact h1
          · simp only [List.length_cons]
            omega

/-! ## The accumulated output of `decode` -/

theorem decodeLoop_acc (root : Node) (acc : List Char) :
    ∀ (stream : List Char) (cur : Node) (out : List Char),
      decodeLoop root stream cur (acc ++ out) =
        match decodeLoop root stream cur out with
        | .error e => .error e
        | .ok (o, c) => .ok (acc ++ o, c) := by
  intro stream
  induction stream with
  | nil => intro cur out; rfl
  | cons bit rest ih =>
    intro cur out
    cases cur with
    | null => rfl
    | node ch f l r =>
      cases hn : (if bit = '0' then l else r) with
      | null => simp [decodeLoop, hn]
      | node ch2 f2 l2 r2 =>
        by_cases hlf : (l2.isNull && r2.isNull) = true
        · simp only [decodeLoop, hn, hlf, if_true]
          rw [← ih root (out ++ [ch2]), List.append_assoc]
        · simp only [decodeLoop, hn, hlf]
          exact ih _ out

/-! ## Counting leaves and internal nodes -/

theorem mapSet_of_not_mem {β : Type} (c : Char) (v : β) (m : List (Char × β))
    (h : c ∉ keys m) : mapSet c v m = m ++ [(c, v)] := by
  induction m with
  | nil => rfl
  | cons q rest ih =>
    obtain ⟨k, w⟩ := q
    simp only [keys, List.map_cons, List.mem_cons, not_or] at h
    have hk : ¬ k = c := fun e => h.1 e.symm
    simp only [mapSet, hk, if_false, List.cons_append]
    rw [ih h.2]

theorem foldl_mapSet_eq_append (code : List Char) (L : List (Char × List Char)) :
    ∀ m : List (Char × List Char), (keys m ++ keys L).Nodup →
      L.foldl (fun m p => mapSet p.1 (code ++ p.2) m) m =
        m ++ L.map (fun p => (p.1, code ++ p.2)) := by
  induction L with
  | nil => intro m _; simp
  | cons q rest ih =>
    intro m hnd
    have hq : q.1 ∉ keys m := by
      intro hmem
      rw [List.nodup_append] at hnd
      exact hnd.2.2 hmem (by simp [keys])
    simp only [List.foldl_cons, List.map_cons]
    rw [mapSet_of_not_mem _ _ _ hq, ih]
    · simp
    · have e : keys (m ++ [(q.1, code ++ q.2)]) ++ keys rest = keys m ++ keys (q :: rest) := by
        simp [keys]
      rw [e]; exact hnd

/-- With distinct leaf symbols the generated table lists the leaves left to right, each
with its root-to-leaf path. -/
theorem generateCodes_eq_paths {t : Node} (hnd : (keys (leaves t)).Nodup) :
    generateCodes t [] [] = paths t := by
  rw [generateCodes_eq_foldl, foldl_mapSet_eq_append [] (paths t) []
    (by rw [keys_paths]; simpa [keys] using hnd)]
  simp

/-- A path of `paths` consists of the digits `'0'` and `'1'` and leads from the root to a
leaf of the tree carrying the symbol. -/
theorem follow_paths {t : Node} (h : Full t) :
    ∀ (c : Char) (p : List Char), (c, p) ∈ paths t →
      (∀ d ∈ p, d = '0' ∨ d = '1') ∧
        ∃ f, (c, f) ∈ leaves t ∧ follow t p = .node c f .null .null := by
  induction h with
  | leaf ch f =>
    intro c p hp
    rw [paths_leaf] at hp
    simp at hp
    obtain ⟨rfl, rfl⟩ := hp
    exact ⟨by simp, f, by simp [leaves_leaf], rfl⟩
  | inner ch f l r hl hr ihl ihr =>
    intro c p hp
    have h10 : ¬ ('1' = '0') := by decide
    rw [paths_inner ch f hl.ne_null, List.mem_append] at hp
    simp only [List.mem_map, Prod.mk.injEq, Prod.exists] at hp
    rcases hp with ⟨c2, q, hq, rfl, rfl⟩ | ⟨c2, q, hq, rfl, rfl⟩
    · obtain ⟨hb, f2, hmem, hf⟩ := ihl c2 q hq
      refine ⟨?_, f2, ?_, by simpa [follow] using hf⟩
      · intro d hd
        rcases List.mem_cons.1 hd with rfl | hd
        · exact Or.inl rfl
        · exact hb d hd
      · rw [leaves_inner ch f hl.ne_null]
        exact List.mem_append_left _ hmem
    · obtain ⟨hb, f2, hmem, hf⟩ := ihr c2 q hq
      refine ⟨?_, f2, ?_, by simpa [follow, h10] using hf⟩
      · intro d hd
        rcases List.mem_cons.1 hd with rfl | hd
        · exact Or.inr rfl
        · exact hb d hd
      · rw [leaves_inner ch f hl.ne_null]
        exact List.mem_append_right _ hmem

theorem paths_ne_nil {t : Node} (h : Full t) (hleaf : t.isLeaf = false) {c : Char}
    {p : List Char} (hp : (c, p) ∈ paths t) : p ≠ [] := by
  cases h with
  | leaf ch f => simp [Node.isLeaf, Node.isNull] at hleaf
  | inner ch f l r hl hr =>
    rw [paths_inner ch f hl.ne_null, List.mem_append] at hp
    simp only [List.mem_map, Prod.mk.injEq, Prod.exists] at hp
    rcases hp with ⟨c2, q, _, _, rfl⟩ | ⟨c2, q, _, _, rfl⟩ <;> simp

/-! ## The lighter child is the left child -/

theorem leftLighter_leaf (ch : Char) (f : Nat) :
    leftLighter (.node ch f .null .null) = true := by
  simp [leftLighter, Node.isNull]

theorem leftLighter_merged (ch : Char) (f : Nat) {l r : Node} (hl : leftLighter l = true)
    (hr : leftLighter r = true) (hle : l.freq ≤ r.freq) :
    leftLighter (.node ch f l r) = true := by
  simp [leftLighter, hl, hr, hle]

/-! ## Length of the encoded stream -/

/-- C1 (evaluation at the failing input): for the text "aaaa" the construction returns a
single leaf, the code of `a` is empty, the encoded stream is empty and `decode` returns
the empty string, which differs from the text: the round trip fails on a text made of a
single repeated symbol. -/
theorem roundtrip_fails_single_symbol (tie : List Node → Nat) :
    ∃ root enc, buildHuffmanTree tie (calculateFrequency ['a', 'a', 'a', 'a']) = .ok root ∧
      encode ['a', 'a', 'a', 'a'] (generateCodes root [] []) = .ok enc ∧
      decode enc root = .ok [] ∧ decode enc root ≠ .ok ['a', 'a', 'a', 'a'] := by
  have hf : calculateFrequency ['a', 'a', 'a', 'a'] = [('a', 4)] := by decide
  refine ⟨.node 'a' 4 .null .null, [], ?_, by decide, by decide, by decide⟩
  rw [hf]
  simp [buildHuffmanTree, initHeap, push, mergeLoop, top_singleton]

/-- C2: for every text with at least two distinct characters, every iteration order of
the frequency map and every choice among equal-weight nodes, the tree is built, the text
is encoded, and decoding the encoded stream against the tree gives back the text. -/
theorem roundtrip_two_distinct (tie : List Node → Nat) (S : List Char)
    (freqMap : List (Char × Nat)) (hperm : freqMap.Perm (calculateFrequency S))
    (h2 : ∃ a ∈ S, ∃ b ∈ S, a ≠ b) :
    ∃ root enc, buildHuffmanTree tie freqMap = .ok root ∧
      encode S (generateCodes root [] []) = .ok enc ∧ decode enc root = .ok S := by
  obtain ⟨root, hroot, hc, _, hleaf, _, hmem⟩ := pipeline_spec tie S freqMap hperm h2
  obtain ⟨enc, he, hd⟩ := decode_encode hc hleaf S (fun c hc => (hmem c).2 hc)
  exact ⟨root, enc, hroot, he, hd⟩

/-- Instance of C2 for the text "huffman coding is fun". -/
theorem roundtrip_two_distinct_witness :
    ∃ root enc,
      buildHuffmanTree (fun _ => 0) (calculateFrequency sampleText) = .ok root ∧
      encode sampleText (generateCodes root [] []) = .ok enc ∧
      decode enc root = .ok sampleText :=
  roundtrip_two_distinct (fun _ => 0) sampleText _ (List.Perm.refl _)
    ⟨'h', by decide, 'u', by decide, by decide⟩

/-- C3: for every text with at least two distinct symbols the tree is built, and for any
two distinct symbols `a` and `b` of the generated code table the code of `a` is not a
prefix of the code of `b`; in particular the two codes differ. -/
theorem codes_prefix_free (tie : List Node → Nat) (S : List Char)
    (freqMap : List (Char × Nat)) (hperm : freqMap.Perm (calculateFrequency S))
    (h2 : ∃ a ∈ S, ∃ b ∈ S, a ≠ b) :
    ∃ root, buildHuffmanTree tie freqMap = .ok root ∧
      ∀ (a b : Char) (ca cb : List Char),
        mapFind a (generateCodes root [] []) = some ca →
        mapFind b (generateCodes root [] []) = some cb → a ≠ b → ¬ ca <+: cb ∧ ca ≠ cb := by
  obtain ⟨root, hroot, hc, _, _, _, _⟩ := pipeline_spec tie S freqMap hperm h2
  refine ⟨root, hroot, ?_⟩
  intro a b ca cb ha hb hab
  have hpre : ¬ ca <+: cb := fun hpre =>
    hab (paths_prefix_unique hc.full a ca b cb (mem_paths_of_mapFind ha)
      (mem_paths_of_mapFind hb) hpre)
  exact ⟨hpre, fun e => hpre (e ▸ List.prefix_refl _)⟩

/-- Instance of C3 for the text "abcab". -/
theorem codes_prefix_free_witness :
    ∃ root, buildHuffmanTree (fun _ => 0) (calculateFrequency ['a', 'b', 'c', 'a', 'b']) = .ok root ∧
      ∀ (a b : Char) (ca cb : List Char),
        mapFind a (generateCodes root [] []) = some ca →
        mapFind b (generateCodes root [] []) = some cb → a ≠ b → ¬ ca <+: cb ∧ ca ≠ cb :=
  codes_prefix_free (fun _ => 0) ['a', 'b', 'c', 'a', 'b'] _ (List.Perm.refl _)
    ⟨'a', by decide, 'b', by decide, by decide⟩

/-- C7 (evaluation at the failing input): for the text "aaaa" the generated code table
assigns `a` the empty code, not the code "0"; `encode` yields the empty stream, not
"0000"; `decode` of that empty stream returns the empty string, not "aaaa"; and `decode`
of the stream "0000" against the built tree dereferences a null child. -/
theorem single_symbol_empty_code (tie : List Node → Nat) :
    ∃ root, buildHuffmanTree tie (calculateFrequency ['a', 'a', 'a', 'a']) = .ok root ∧
      generateCodes root [] [] = [('a', [])] ∧
      encode ['a', 'a', 'a', 'a'] (generateCodes root [] []) = .ok [] ∧
      decode [] root = .ok [] ∧
      decode ['0', '0', '0', '0'] root = .error .nullDeref := by
  have hf : calculateFrequency ['a', 'a', 'a', 'a'] = [('a', 4)] := by decide
  refine ⟨.node 'a' 4 .null .null, ?_, by decide, by decide, by decide, by decide⟩
  rw [hf]
  simp [buildHuffmanTree, initHeap, push, mergeLoop, top_singleton]

/-- C8 (evaluation at the failing input): the frequency map of the empty text is empty,
and on the empty map `buildHuffmanTree` calls `top()` on an empty queue, which is
undefined behaviour of the program and not a reported `EmptyInput` error. -/
theorem build_empty_reads_empty_top (tie : List Node → Nat) :
    calculateFrequency [] = [] ∧ initHeap [] = [] ∧
      mergeLoop tie (initHeap []).length (initHeap []) = .ok [] ∧
      buildHuffmanTree tie [] = .error .emptyTop := by
  refine ⟨rfl, rfl, by simp [initHeap, mergeLoop], buildHuffmanTree_nil tie⟩

/-- C9 (counterexample): on the three-leaf tree `sampleTree` the stream "01" is the code of
`a` followed by the first digit of a two-digit code; the walk ends on an internal node
other than the root, and `decode` returns "a" without reporting any error. -/
theorem decode_truncated_counterexample :
    Full sampleTree ∧ sampleTree.isLeaf = false ∧
      (∃ cur, decodeLoop sampleTree ['0', '1'] sampleTree [] = .ok (['a'], cur) ∧
        cur ≠ sampleTree) ∧
      decode ['0', '1'] sampleTree = .ok ['a'] := by
  refine ⟨Full.inner _ _ _ _ (Full.leaf _ _) (Full.inner _ _ _ _ (Full.leaf _ _) (Full.leaf _ _)),
    by decide, ⟨_, rfl, by decide⟩, by decide⟩

/-- C9 (amended): for every full binary tree with at least two leaves, every text over
its symbols and every non-empty proper prefix `p` of a code, the stream made of the
encoded text followed by `p` is decoded without any error: the walk ends on a node other
than the root and `decode` returns the text, the trailing partial symbol being
dropped. -/
theorem decode_truncated_silent {root : Node} (hfull : Full root)
    (hleaf : root.isLeaf = false) (text : List Char)
    (htext : ∀ c ∈ text, c ∈ keys (leaves root)) (c : Char) (p s : List Char)
    (hcode : mapFind c (generateCodes root [] []) = some (p ++ s)) (hp : p ≠ [])
    (hs : s ≠ []) :
    ∃ enc cur, encode text (generateCodes root [] []) = .ok enc ∧
      decodeLoop root (enc ++ p) root [] = .ok (text, cur) ∧ cur ≠ root ∧
      decode (enc ++ p) root = .ok text := by
  obtain ⟨enc, he, hd⟩ := decodeLoop_encode hfull hleaf p text [] htext
  obtain ⟨cur, hcur, hsz⟩ :=
    decodeLoop_partial root hfull c p s text (mem_paths_of_mapFind hcode) hs
  have hloop : decodeLoop root (enc ++ p) root [] = .ok (text, cur) := by
    rw [hd]; simpa using hcur
  refine ⟨enc, cur, he, hloop, ?_, decode_eq_of_decodeLoop hloop⟩
  intro e
  rw [e] at hsz
  have : 0 < p.length := List.length_pos.2 hp
  omega

/-- Instance of the amended C9: the codes of "ab" followed by the first digit of the code
of `c`, on `sampleTree`. -/
theorem decode_truncated_silent_witness :
    ∃ enc cur, encode ['a', 'b'] (generateCodes sampleTree [] []) = .ok enc ∧
      decodeLoop sampleTree (enc ++ ['1']) sampleTree [] = .ok (['a', 'b'], cur) ∧
      cur ≠ sampleTree ∧ decode (enc ++ ['1']) sampleTree = .ok ['a', 'b'] :=
  decode_truncated_silent
    (Full.inner _ _ _ _ (Full.leaf _ _) (Full.inner _ _ _ _ (Full.leaf _ _) (Full.leaf _ _)))
    (by decide) ['a', 'b'] (by decide) 'c' ['1'] ['1'] (by decide) (by decide) (by decide)

/-- C10: `encode` fails exactly when some character of the text has no entry in the
table, and the failure is the `out_of_range` exception of `at`; when every character has
an entry it returns the concatenation of the characters' codes in input order, and the
encoding of a concatenation is the concatenation of the encodings. -/
theorem encode_unknown_symbol (text S1 S2 : List Char) (table : List (Char × List Char)) :
    ((∃ e, encode text table = .error e) ↔ ∃ c ∈ text, mapFind c table = none) ∧
    (∀ e, encode text table = .error e → e = .outOfRange) ∧
    ((∀ c ∈ text, mapFind c table ≠ none) →
      encode text table = .ok (text.flatMap (fun c => (mapFind c table).getD []))) ∧
    ((∀ c ∈ S1 ++ S2, mapFind c table ≠ none) →
      ∃ e1 e2, encode S1 table = .ok e1 ∧ encode S2 table = .ok e2 ∧
        encode (S1 ++ S2) table = .ok (e1 ++ e2)) := by
  refine ⟨?_, encode_error_kind table text, encode_ok table text, ?_⟩
  · rw [← encode_error_iff]
    constructor
    · rintro ⟨e, he⟩
      rw [he, encode_error_kind table text e he]
    · intro h
      exact ⟨_, h⟩
  · intro h
    have h1 := encode_ok table S1 (fun c hc => h c (List.mem_append_left _ hc))
    have h2 := encode_ok table S2 (fun c hc => h c (List.mem_append_right _ hc))
    refine ⟨_, _, h1, h2, ?_⟩
    rw [encode_append, h1, h2]

/-- Instance of C10 for the text "aba" and a two-entry table. -/
theorem encode_unknown_symbol_witness :
    encode ['a', 'b', 'a'] [('a', ['0']), ('b', ['1', '0'])] = .ok ['0', '1', '0', '0'] ∧
    (∃ e1 e2, encode ['a'] [('a', ['0']), ('b', ['1', '0'])] = .ok e1 ∧
      encode ['b', 'a'] [('a', ['0']), ('b', ['1', '0'])] = .ok e2 ∧
      encode (['a'] ++ ['b', 'a']) [('a', ['0']), ('b', ['1', '0'])] = .ok (e1 ++ e2)) :=
  ⟨(encode_unknown_symbol ['a', 'b', 'a'] ['a'] ['b', 'a']
      [('a', ['0']), ('b', ['1', '0'])]).2.2.1 (by decide),
   (encode_unknown_symbol ['a', 'b', 'a'] ['a'] ['b', 'a']
      [('a', ['0']), ('b', ['1', '0'])]).2.2.2 (by decide)⟩

/-- C11 (evaluation at the failing input): when the tree is a single leaf, `decode` of
the empty stream returns the empty string, but `decode` of every non-empty stream steps
to the null left or right child of the leaf and then reads a field through that null
pointer; it does not return copies of the symbol.  In particular this happens for the
stream "0000" and the tree built from the text "aaaa". -/
theorem decode_single_leaf_null (tie : List Node → Nat) (s : Char) (f : Nat) (bit : Char)
    (rest : List Char) :
    decode [] (.node s f .null .null) = .ok [] ∧
    decode (bit :: rest) (.node s f .null .null) = .error .nullDeref ∧
    buildHuffmanTree tie (calculateFrequency ['a', 'a', 'a', 'a']) =
      .ok (.node 'a' 4 .null .null) ∧
    decode ['0', '0', '0', '0'] (.node 'a' 4 .null .null) = .error .nullDeref := by
  have hf : calculateFrequency ['a', 'a', 'a', 'a'] = [('a', 4)] := by decide
  refine ⟨rfl, decode_leaf_cons s f bit rest, ?_, by decide⟩
  rw [hf]
  simp [buildHuffmanTree, initHeap, push, mergeLoop, top_singleton]

/-- C13: for every frequency map with at least two symbols and every choice among
equal-weight nodes, the tree is built and `generateCodes(root, "")` produces the table
that lists the leaves with their root-to-leaf paths: its keys are exactly the symbols on
the leaves (the symbols of the map), and every code is non-empty, consists of the digits
`'0'` and `'1'`, and followed from the root with `'0'` as a left step and `'1'` as a right
step it ends on the leaf that carries the symbol. -/
theorem table_is_leaf_paths (tie : List Node → Nat) (freqMap : List (Char × Nat))
    (hnd : (keys freqMap).Nodup) (h2 : 2 ≤ freqMap.length) :
    ∃ root, buildHuffmanTree tie freqMap = .ok root ∧
      generateCodes root [] [] = paths root ∧
      keys (generateCodes root [] []) = keys (leaves root) ∧
      (keys (generateCodes root [] [])).Perm (keys freqMap) ∧
      ∀ c code, mapFind c (generateCodes root [] []) = some code →
        code ≠ [] ∧ (∀ d ∈ code, d = '0' ∨ d = '1') ∧
          ∃ f, (c, f) ∈ freqMap ∧ follow root code = .node c f .null .null := by
  have hne : freqMap ≠ [] := by
    intro e; rw [e] at h2; simp at h2
  obtain ⟨root, hroot, hc, hl⟩ := buildHuffmanTree_spec tie freqMap hne
  have hnd2 : (keys (leaves root)).Nodup := nodup_keys_of_perm hl hnd
  have hleaf := isLeaf_false_of_leaves hc hl h2
  have htab := generateCodes_eq_paths hnd2
  refine ⟨root, hroot, htab, by rw [htab, keys_paths], ?_, ?_⟩
  · rw [htab, keys_paths]
    exact hl.map Prod.fst
  · intro c code hcode
    have hp := mem_paths_of_mapFind hcode
    obtain ⟨hbin, f, hmem, hfol⟩ := follow_paths hc.full c code hp
    exact ⟨paths_ne_nil hc.full hleaf hp, hbin, f, hl.subset hmem, hfol⟩

/-- Instance of C13: the map a:2, b:2, c:1. -/
theorem table_is_leaf_paths_witness :
    ∃ root, buildHuffmanTree (fun _ => 0) [('a', 2), ('b', 2), ('c', 1)] = .ok root ∧
      generateCodes root [] [] = paths root ∧
      keys (generateCodes root [] []) = keys (leaves root) ∧
      (keys (generateCodes root [] [])).Perm (keys [('a', 2), ('b', 2), ('c', 1)]) ∧
      ∀ c code, mapFind c (generateCodes root [] []) = some code →
        code ≠ [] ∧ (∀ d ∈ code, d = '0' ∨ d = '1') ∧
          ∃ f, (c, f) ∈ [('a', 2), ('b', 2), ('c', 1)] ∧
            follow root code = .node c f .null .null :=
  table_is_leaf_paths (fun _ => 0) [('a', 2), ('b', 2), ('c', 1)] (by decide) (by decide)

/-- C16: for every full binary tree whose root is an internal node and every digit
string (any character other than `'0'` is a right step), `decode` never steps onto a
null child and returns a result, and the number of symbols it emits is at most the
number of digits. -/
theorem decode_total_branching {root : Node} (hfull : Full root)
    (hleaf : root.isLeaf = false) (stream : List Char) :
    ∃ out cur, decodeLoop root stream root [] = .ok (out, cur) ∧
      decode stream root = .ok out ∧ out.length ≤ stream.length := by
  obtain ⟨out, cur, h1, h2⟩ := decodeLoop_total hfull hleaf stream root [] hfull hleaf
  refine ⟨out, cur, h1, decode_eq_of_decodeLoop h1, ?_⟩
  simpa using h2

/-- Instance of C16: the stream "0x1" on `sampleTree`, with a character that is not a
digit. -/
theorem decode_total_branching_witness :
    ∃ out cur, decodeLoop sampleTree ['0', 'x', '1'] sampleTree [] = .ok (out, cur) ∧
      decode ['0', 'x', '1'] sampleTree = .ok out ∧ out.length ≤ 3 :=
  decode_total_branching
    (Full.inner _ _ _ _ (Full.leaf _ _) (Full.inner _ _ _ _ (Full.leaf _ _) (Full.leaf _ _)))
    (by decide) ['0', 'x', '1']

/-- C17: for every full binary tree with at least two leaves, its generated code table,
every sequence `S` of symbols of the tree and every digit string `B`, the sequence is
encoded, `B` is decoded to some `out`, and decoding the encoded sequence followed by `B`
gives `S` followed by `out`. -/
theorem decode_compositional {root : Node} (hfull : Full root) (hleaf : root.isLeaf = false)
    (S : List Char) (hS : ∀ c ∈ S, c ∈ keys (leaves root)) (B : List Char) :
    ∃ enc out, encode S (generateCodes root [] []) = .ok enc ∧ decode B root = .ok out ∧
      decode (enc ++ B) root = .ok (S ++ out) := by
  obtain ⟨enc, he, hd⟩ := decodeLoop_encode hfull hleaf B S [] hS
  obtain ⟨out, cur, h1, _⟩ := decodeLoop_total hfull hleaf B root [] hfull hleaf
  refine ⟨enc, out, he, decode_eq_of_decodeLoop h1, ?_⟩
  have h2 := decodeLoop_acc root S B root []
  simp only [List.append_nil, List.nil_append] at h2 hd
  rw [h1] at h2
  rw [h2] at hd
  exact decode_eq_of_decodeLoop hd

/-- Instance of C17: the sequence "cab" and the digit string "101" on `sampleTree`. -/
theorem decode_compositional_witness :
    ∃ enc out, encode ['c', 'a', 'b'] (generateCodes sampleTree [] []) = .ok enc ∧
      decode ['1', '0', '1'] sampleTree = .ok out ∧
      decode (enc ++ ['1', '0', '1']) sampleTree = .ok (['c', 'a', 'b'] ++ out) :=
  decode_compositional
    (Full.inner _ _ _ _ (Full.leaf _ _) (Full.inner _ _ _ _ (Full.leaf _ _) (Full.leaf _ _)))
    (by decide) ['c', 'a', 'b'] (by decide) ['1', '0', '1']

/-- C19: for every non-empty frequency map and every choice among equal-weight nodes,
the tree is built, and at every internal node of it the `freq` of the left child is at
most the `freq` of the right child: the first node removed from the queue becomes the
left child, the second the right child. -/
theorem lighter_child_left (tie : List Node → Nat) (freqMap : List (Char × Nat))
    (hne : freqMap ≠ []) :
    ∃ root, buildHuffmanTree tie freqMap = .ok root ∧ leftLighter root = true := by
  obtain ⟨root, hroot, hinv⟩ := buildHuffmanTree_invariant tie
    (fun heap => ∀ t ∈ heap, leftLighter t = true)
    (by
      intro heap l r rest hinv hperm hlmin _ t ht
      rcases List.mem_append.1 ht with ht | ht
      · exact hinv t (hperm.symm.subset (by simp [ht]))
      · simp only [List.mem_singleton] at ht
        subst ht
        exact leftLighter_merged _ _ (hinv l (hperm.symm.subset (by simp)))
          (hinv r (hperm.symm.subset (by simp))) (hlmin r (hperm.symm.subset (by simp))))
    freqMap hne
    (by
      intro t ht
      simp only [List.mem_map] at ht
      obtain ⟨p, _, rfl⟩ := ht
      exact leftLighter_leaf _ _)
  exact ⟨root, hroot, hinv root (by simp)⟩

/-- Instance of C19: the map a:2, b:2, c:1. -/
theorem lighter_child_left_witness :
    ∃ root, buildHuffmanTree (fun _ => 0) [('a', 2), ('b', 2), ('c', 1)] = .ok root ∧
      leftLighter root = true :=
  lighter_child_left (fun _ => 0) [('a', 2), ('b', 2), ('c', 1)] (by decide)

end Huffman
